import Mathlib

/-!
Verification of the `j` note/task-capture tool: the document model
(`object.go`: `Thought.Marshal`, `Thought.Unmarshal`, `Thought.Mutate`,
`Meta.Update`, `FrontMatter.UnmarshalYAML`) and the action queue
(`queue.go`: `Queue.Enqueue`, `Queue.Dequeue`, `FifoDiscipline`).

Byte buffers are modelled as `List Char`.  The parts of the third-party
`gopkg.in/yaml.v2` library exercised by this program are modelled over the
subset of YAML the program reads and writes: block mappings with scalar
values, block and flow sequences of scalars, double-quoted scalars, and
YAML 1.1 scalar resolution of booleans, nulls and numbers.  Go's
`nil` slice versus empty slice distinction is modelled with
`Option (List Bytes)` (`none` is the nil slice).
-/

/-- Byte buffers (`[]byte` in Go); this repository only handles text. -/
abbrev Bytes := List Char

namespace J

/- ------------------------------------------------------------------ -/
/- Action queue (queue.go)                                            -/
/- ------------------------------------------------------------------ -/

/-- An `Action` is a runnable unit.  Its `Run` method returns offspring
actions and an error; for the queue's behaviour only these two results
matter, so an action is modelled by them. -/
inductive Action where
  | mk (offspring : List Action) (err : Option String)

/-- The offspring that running the action produces. -/
def Action.offspring : Action → List Action
  | .mk o _ => o

/-- The error that running the action produces. -/
def Action.err : Action → Option String
  | .mk _ e => e

/-- `Run` returns the action's offspring and its error. -/
def Action.Run (a : Action) : List Action × Option String :=
  (a.offspring, a.err)

/-- `QueueDiscipline` picks the index of the next action to dequeue,
or `-1` when no action can be selected. -/
abbrev QueueDiscipline := List Action → Int

/-- `FifoDiscipline` always returns the index of the oldest action. -/
def FifoDiscipline : QueueDiscipline := fun actions =>
  if actions.length ≤ 0 then -1 else 0

/-- The queue: a discipline and the pending list.  The Go struct also
holds a mutex; the model is single-threaded, so it is omitted. -/
structure Queue where
  discipline : QueueDiscipline
  actions : List Action

/-- `Enqueue` appends the given action to the pending list. -/
def Queue.Enqueue (q : Queue) (a : Action) : Queue :=
  { q with actions := q.actions ++ [a] }

/-- Outcome of one `Dequeue` call.  `ran` records which action was
executed (observable through the action's side effects in Go);
`panicked` models Go's out-of-range slice-index runtime panic. -/
inductive DeqStatus where
  | ok (ran : Action) (final : Bool) (err : Option String)
  | errEmpty
  | errNoSelect
  | panicked

/-- `Dequeue` (named `RunNext` in some revisions): selects an action via
the discipline, removes it, runs it, appends its offspring to the
pending list regardless of the run error, and reports whether the queue
is now empty together with the run error. -/
def Queue.Dequeue (q : Queue) : DeqStatus × Queue :=
  if q.actions.length ≤ 0 then (.errEmpty, q)
  else if q.discipline q.actions = -1 then (.errNoSelect, q)
  else if h : 0 ≤ q.discipline q.actions
      ∧ (q.discipline q.actions).toNat < q.actions.length then
    let a := q.actions.get ⟨(q.discipline q.actions).toNat, h.2⟩
    let remaining := q.actions.take (q.discipline q.actions).toNat
      ++ q.actions.drop ((q.discipline q.actions).toNat + 1)
    let r := a.Run
    let newActions := remaining ++ r.1
    (.ok a (decide (newActions.length ≤ 0)) r.2, { q with actions := newActions })
  else (.panicked, q)

/-- `NewQueue` returns a new, empty queue with the given discipline. -/
def NewQueue (disc : QueueDiscipline) : Queue :=
  { discipline := disc, actions := [] }

end J

namespace J

/- ------------------------------------------------------------------ -/
/- Byte-buffer utilities (bytes.SplitN, bytes.Join, bytes.TrimRight)  -/
/- ------------------------------------------------------------------ -/

/-- The document separator line `"---\n"`. -/
def sepMarker : Bytes := ['-', '-', '-', '\n']

/-- Splits `s` at the first occurrence of the (non-empty) separator
`sep`, returning the part before and the part after, or `none` when
`sep` does not occur in `s` (Go `bytes.Index`). -/
def firstSplit (sep : Bytes) : Bytes → Option (Bytes × Bytes)
  | [] => none
  | c :: rest =>
    if sep.isPrefixOf (c :: rest) then some ([], (c :: rest).drop sep.length)
    else
      match firstSplit sep rest with
      | some (pre, post) => some (c :: pre, post)
      | none => none

/-- Go `bytes.SplitN(s, sep, n)` for `n ≥ 1` and non-empty `sep`:
splits around the first `n-1` occurrences of `sep`; the last part keeps
the rest of the buffer unsplit. -/
def goSplitN (sep : Bytes) (s : Bytes) (n : Nat) : List Bytes :=
  match n with
  | 0 => []
  | 1 => [s]
  | m + 2 =>
    match firstSplit sep s with
    | none => [s]
    | some (pre, post) => pre :: goSplitN sep post (m + 1)

/-- Go `bytes.Join(parts, sep)`. -/
def bytesJoin (sep : Bytes) : List Bytes → Bytes
  | [] => []
  | [p] => p
  | p :: ps => p ++ sep ++ bytesJoin sep ps

/-- Go `bytes.TrimRight(b, "\n")`: removes all trailing newlines. -/
def trimRightNewlines (b : Bytes) : Bytes :=
  (b.reverse.dropWhile (fun c => c = '\n')).reverse

/-- Removes leading spaces. -/
def trimLeftSpaces (b : Bytes) : Bytes := b.dropWhile (fun c => c = ' ')

/-- Removes trailing spaces. -/
def trimRightSpaces (b : Bytes) : Bytes :=
  (b.reverse.dropWhile (fun c => c = ' ')).reverse

/-- Removes leading and trailing spaces. -/
def trimSpaces (b : Bytes) : Bytes := trimRightSpaces (trimLeftSpaces b)

/-- Splits a buffer into lines at each `'\n'` (the final line has no
terminator; a trailing `'\n'` yields a final empty line). -/
def splitLines : Bytes → List Bytes
  | [] => [[]]
  | c :: rest =>
    if c = '\n' then [] :: splitLines rest
    else
      match splitLines rest with
      | l :: ls => (c :: l) :: ls
      | [] => [[c]]

end J

namespace J

/- ------------------------------------------------------------------ -/
/- Model of the yaml.v2 subset used by this program                   -/
/- ------------------------------------------------------------------ -/

/-- Result of YAML 1.1 scalar resolution as performed by yaml.v2:
a raw scalar token resolves to null, a boolean, a number, or a string. -/
inductive Scalar where
  | nullS
  | boolS (b : Bool)
  | numS (raw : Bytes)
  | strS (s : Bytes)
deriving DecidableEq

/-- The scalar spellings yaml.v2 resolves to boolean `true`. -/
def yamlTrueLits : List Bytes :=
  ["y", "Y", "yes", "Yes", "YES", "true", "True", "TRUE", "on", "On", "ON"].map
    String.toList

/-- The scalar spellings yaml.v2 resolves to boolean `false`. -/
def yamlFalseLits : List Bytes :=
  ["n", "N", "no", "No", "NO", "false", "False", "FALSE", "off", "Off", "OFF"].map
    String.toList

/-- The scalar spellings yaml.v2 resolves to null (an absent value also
resolves to null). -/
def yamlNullLits : List Bytes :=
  ["~", "null", "Null", "NULL", ""].map String.toList

/-- Rough model of yaml.v2 numeric resolution: a token starting with a
digit, sign or dot made only of numeric-looking characters. -/
def isNumericLit (s : Bytes) : Bool :=
  match s with
  | [] => false
  | c :: _ =>
    (c.isDigit || c = '-' || c = '+' || c = '.')
      && s.all (fun d =>
        d.isDigit || d = '.' || d = '-' || d = '+' || d = 'e' || d = 'E'
          || d = 'x' || d = 'o' || d = 'b' || d = '_')

/-- Resolves a raw scalar token: double-quoted tokens are strings, then
null, boolean and numeric spellings are recognized, anything else is a
plain string. -/
def resolveScalar (raw : Bytes) : Scalar :=
  if raw.head? = some '"' ∧ raw.getLast? = some '"' ∧ 2 ≤ raw.length then
    .strS (raw.drop 1).dropLast
  else if raw ∈ yamlNullLits then .nullS
  else if raw ∈ yamlTrueLits then .boolS true
  else if raw ∈ yamlFalseLits then .boolS false
  else if isNumericLit raw then .numS raw
  else .strS raw

/-- A raw header value before typed decoding: a scalar token or a
sequence of scalar tokens. -/
inductive RawVal where
  | scalarV (raw : Bytes)
  | seqV (items : List Bytes)
deriving DecidableEq

/-- Recognizes a block-sequence item line (`- item`, with optional
leading indentation), returning the raw item token. -/
def seqItem? (l : Bytes) : Option Bytes :=
  let t := trimLeftSpaces l
  if t.head? = some '-' then
    if t.tail = [] then some []
    else if t.tail.head? = some ' ' then some (trimSpaces t.tail.tail)
    else none
  else none

/-- A line consisting only of spaces. -/
def isBlank (l : Bytes) : Bool := l.all (fun c => c = ' ')

/-- Collects the leading run of block-sequence item lines. -/
def takeSeqItems : List Bytes → List Bytes × List Bytes
  | [] => ([], [])
  | l :: rest =>
    match seqItem? l with
    | some it =>
      let p := takeSeqItems rest
      (it :: p.1, p.2)
    | none => ([], l :: rest)

/-- Splits the inside of a flow sequence at each comma. -/
def splitCommas : Bytes → List Bytes
  | [] => [[]]
  | c :: rest =>
    if c = ',' then [] :: splitCommas rest
    else
      match splitCommas rest with
      | l :: ls => (c :: l) :: ls
      | [] => [[c]]

/-- Parses the inside of a flow sequence `[ ... ]` into raw item
tokens. -/
def parseFlowItems (inner : Bytes) : List Bytes :=
  if trimSpaces inner = [] then []
  else (splitCommas inner).map trimSpaces

/-- Finds the first `':'` of a mapping line, returning the text before
it and the text after it. -/
def splitKeyColon : Bytes → Option (Bytes × Bytes)
  | [] => none
  | c :: rest =>
    if c = ':' then some ([], rest)
    else
      match splitKeyColon rest with
      | some (k, v) => some (c :: k, v)
      | none => none

/-- Parses the header lines into raw `key ↦ value` entries.  Models the
yaml.v2 parser on the block-mapping subset this program exchanges:
mapping lines `key: value` / `key:`, block sequences of scalars, flow
sequences of scalars, blank lines.  Anything else is a parse error.
The fuel argument only makes the recursion structural; `parseEntries`
below supplies enough fuel that it is never exhausted (every step
consumes at least one line and one unit of fuel). -/
def parseEntriesF : Nat → List Bytes → Except String (List (Bytes × RawVal))
  | 0, _ => .error "internal: out of fuel"
  | _ + 1, [] => .ok []
  | fuel + 1, l :: rest =>
    if isBlank l then parseEntriesF fuel rest
    else if (seqItem? l).isSome then
      .error "block sequence entry outside of a sequence"
    else
      match splitKeyColon l with
      | none => .error "could not find expected colon in mapping line"
      | some (k, after) =>
        let key := trimSpaces k
        if after = [] then
          let p := takeSeqItems rest
          if p.1 = [] then
            (parseEntriesF fuel p.2).map (fun es => (key, .scalarV []) :: es)
          else
            (parseEntriesF fuel p.2).map (fun es => (key, .seqV p.1) :: es)
        else if after.head? = some ' ' then
          let v := trimSpaces after
          if v.head? = some '[' then
            if v.getLast? = some ']' then
              (parseEntriesF fuel rest).map
                (fun es => (key, .seqV (parseFlowItems (v.drop 1).dropLast)) :: es)
            else .error "malformed flow sequence"
          else
            (parseEntriesF fuel rest).map (fun es => (key, .scalarV v) :: es)
        else .error "unexpected character after colon"

/-- Parses the header lines into raw entries (with sufficient fuel). -/
def parseEntries (ls : List Bytes) : Except String (List (Bytes × RawVal)) :=
  parseEntriesF (ls.length + 1) ls

/-- The anonymous buffer struct inside `FrontMatter.UnmarshalYAML` that
yaml.v2 decodes into.  Go zero values: `""`, nil slice (`none`),
`false`. -/
structure BufFM where
  Class : Bytes := []
  Tags : Option (List Bytes) := none
  PendingReview : Bool := false
deriving DecidableEq

/-- Typed decode of a raw header value into a Go `string` field: null
sets the zero value, strings decode, any other resolved kind is a
`yaml.TypeError`. -/
def decodeStringVal (v : RawVal) : Except String Bytes :=
  match v with
  | .seqV _ => .error "cannot unmarshal sequence into string"
  | .scalarV raw =>
    match resolveScalar raw with
    | .strS s => .ok s
    | .nullS => .ok []
    | .boolS _ => .error "cannot unmarshal bool into string"
    | .numS _ => .error "cannot unmarshal number into string"

/-- Typed decode of a raw header value into a Go `bool` field. -/
def decodeBoolVal (v : RawVal) : Except String Bool :=
  match v with
  | .seqV _ => .error "cannot unmarshal sequence into bool"
  | .scalarV raw =>
    match resolveScalar raw with
    | .boolS b => .ok b
    | .nullS => .ok false
    | .strS _ => .error "cannot unmarshal string into bool"
    | .numS _ => .error "cannot unmarshal number into bool"

/-- Typed decode of a raw header value into a Go `[]string` field:
null leaves the field untouched (`none` = nil slice), a sequence
decodes element-wise. -/
def decodeTagsVal (v : RawVal) : Except String (Option (List Bytes)) :=
  match v with
  | .scalarV raw =>
    match resolveScalar raw with
    | .nullS => .ok none
    | _ => .error "cannot unmarshal scalar into string slice"
  | .seqV items =>
    (items.mapM (fun it => decodeStringVal (.scalarV it))).map some

/-- Applies one raw header entry to the buffer struct; keys other than
the three tagged fields are ignored (yaml.v2 default behaviour). -/
def applyEntry (b : BufFM) (e : Bytes × RawVal) : Except String BufFM :=
  if e.1 = "class".toList then
    (decodeStringVal e.2).map (fun s => { b with Class := s })
  else if e.1 = "tags".toList then
    (decodeTagsVal e.2).map (fun t =>
      match t with
      | none => b
      | some l => { b with Tags := some l })
  else if e.1 = "pending_review".toList then
    (decodeBoolVal e.2).map (fun p => { b with PendingReview := p })
  else .ok b

/-- Decodes the raw entries into the buffer struct. -/
def decodeBuf (es : List (Bytes × RawVal)) : Except String BufFM :=
  es.foldlM applyEntry {}

/-- `FrontMatter`, the struct the document header is unmarshaled into.
`Tags = none` models a Go nil slice. -/
structure GoFrontMatter where
  Class : Bytes := []
  Tags : Option (List Bytes) := none
  PendingReview : Bool := false
deriving DecidableEq

/-- A buffer that yaml.v2 parses as zero documents (`yaml.Unmarshal`
then returns without touching the output value). -/
def isWhitespaceOnly (s : Bytes) : Bool :=
  s.all (fun c => c = ' ' || c = '\n')

/-- `yaml.Unmarshal(header, fm)` for `fm := new(FrontMatter)`:
on an empty (whitespace-only) buffer the parser yields no document and
`fm` keeps its zero value — in particular `Tags` stays nil; otherwise
`FrontMatter.UnmarshalYAML` decodes into the buffer struct and copies
it, normalizing a nil `Tags` to an empty slice. -/
def yamlUnmarshalFM (s : Bytes) : Except String GoFrontMatter :=
  if isWhitespaceOnly s then .ok {}
  else
    match parseEntries (splitLines s) with
    | .error e => .error e
    | .ok entries =>
      match decodeBuf entries with
      | .error e => .error e
      | .ok buf =>
        .ok { Class := buf.Class
              Tags := some (buf.Tags.getD [])
              PendingReview := buf.PendingReview }

end J

namespace J

/- ------------------------------------------------------------------ -/
/- Document model (object.go)                                         -/
/- ------------------------------------------------------------------ -/

/-- `Meta`: attributes shared by all objects.  `Tags = none` models a
Go nil slice. -/
structure GoMeta where
  Class : Bytes
  Tags : Option (List Bytes)
deriving DecidableEq

/-- `Meta.Update` sets the Meta's attributes from the given
FrontMatter: tags are copied unconditionally; a differing class is only
warned about (the returned `Bool` records whether the warning was
logged) and never applied.  The Go method always returns a nil error. -/
def GoMeta.Update (m : GoMeta) (fm : GoFrontMatter) : GoMeta × Bool :=
  ({ m with Tags := fm.Tags }, decide (fm.Class ≠ m.Class))

/-- `Thought`: id, body (never newline-terminated), pending-review
flag, and the embedded Meta. -/
structure Thought where
  id : Bytes
  Body : Bytes
  PendingReview : Bool
  Meta : GoMeta
deriving DecidableEq

/-- Result of `Thought.Unmarshal`: the updated receiver, the returned
error, and whether the class-change warning was logged. -/
structure UnmarshalResult where
  obj : Thought
  err : Option String
  warned : Bool
deriving DecidableEq

/-- `Thought.Unmarshal`: splits the buffer on `"---\n"` into exactly 3
parts, requires the document to start with the separator, decodes the
YAML header, trims trailing newlines off the body, then sets
`PendingReview`, `Body` and updates the Meta.  Each error return in the
source happens before any write to the receiver, so on error the model
returns the receiver unchanged. -/
def Thought.Unmarshal (obj : Thought) (b : Bytes) : UnmarshalResult :=
  match goSplitN sepMarker b 3 with
  | [p0, p1, p2] =>
    if p0 ≠ [] then
      { obj := obj, err := some "File must start with the separator", warned := false }
    else
      match yamlUnmarshalFM p1 with
      | .error e => { obj := obj, err := some e, warned := false }
      | .ok fm =>
        let body := trimRightNewlines p2
        let u := obj.Meta.Update fm
        { obj := { obj with PendingReview := fm.PendingReview, Body := body, Meta := u.1 }
          err := none
          warned := u.2 }
  | _ =>
    { obj := obj, err := some "File must have 3 sections separated by the marker"
      warned := false }

/-- Model of the yaml.v2 emitter on a scalar whose characters need no
quoting; the empty string is emitted double-quoted. -/
def encodeScalar (s : Bytes) : Bytes :=
  if s = [] then ['"', '"'] else s

/-- Model of the yaml.v2 emitter on the `tags` MapItem: a nil slice
emits `null`, an empty slice emits the flow marker `[]`, a non-empty
slice emits a block sequence. -/
def encodeTags : Option (List Bytes) → Bytes
  | none => "tags: null\n".toList
  | some [] => "tags: []\n".toList
  | some ts =>
    "tags:\n".toList ++ (ts.map (fun t => '-' :: ' ' :: (encodeScalar t ++ ['\n']))).flatten

/-- Model of `yaml.Marshal` on the `frontMatter` MapSlice built by
`Thought.Marshal`: the three fields in order `class`, `tags`,
`pending_review`. -/
def encodeFrontMatter (obj : Thought) : Bytes :=
  "class: ".toList ++ encodeScalar obj.Meta.Class ++ ['\n']
    ++ encodeTags obj.Meta.Tags
    ++ "pending_review: ".toList
    ++ (if obj.PendingReview then "true".toList else "false".toList) ++ ['\n']

/-- The error-handling skeleton of `Thought.Marshal`, taking the header
encoder's result as an argument: when the encoder fails the source
returns `[]byte{}, nil` — an empty buffer and a NIL error; otherwise it
appends a newline to a non-empty body and joins the three sections with
the separator. -/
def Thought.marshalWith (obj : Thought) (enc : Except String Bytes) : Except String Bytes :=
  match enc with
  | .error _ => .ok []
  | .ok y =>
    let body := if obj.Body.length ≠ 0 then obj.Body ++ ['\n'] else obj.Body
    .ok (bytesJoin sepMarker [[], y, body])

/-- `Thought.Marshal`, with the header encoder modelled by
`encodeFrontMatter` (which, like yaml.v2 on this fixed MapSlice, always
succeeds). -/
def Thought.Marshal (obj : Thought) : Except String Bytes :=
  obj.marshalWith (.ok (encodeFrontMatter obj))

/-- `NewThought` returns an empty Thought of class `thought` with an
empty (non-nil) tag slice. -/
def NewThought : Thought :=
  { id := [], Body := [], PendingReview := false
    Meta := { Class := "thought".toList, Tags := some [] } }

/-- Environment for one `Thought.Mutate` call: whether each I/O step
succeeds, and the caller-supplied transform, modelled as a function
from the temp file's current content to its rewritten content (or an
error). -/
structure MutateEnv where
  tempOk : Bool
  absOk : Bool
  writeOk : Bool
  openOk : Bool
  readOk : Bool
  transform : Bytes → Except String Bytes

/-- Result of `Thought.Mutate`: the receiver afterwards, the returned
error, and whether the temporary file still exists on disk after the
call returns. -/
structure MutateResult where
  obj : Thought
  err : Option String
  tempLeft : Bool
deriving DecidableEq

/-- `Thought.Mutate`, step for step: create the temp file; resolve its
absolute path (only after which the `defer os.Remove` is registered, so
a failure of `filepath.Abs` leaks the file); marshal; write; run the
transform on the file; reopen and reread it; unmarshal the new content
into the receiver.  Every failure returns the receiver unchanged. -/
def Thought.Mutate (obj : Thought) (env : MutateEnv) : MutateResult :=
  if ¬ env.tempOk then
    { obj := obj, err := some "TempFile failed", tempLeft := false }
  else if ¬ env.absOk then
    { obj := obj, err := some "filepath.Abs failed", tempLeft := true }
  else
    match obj.Marshal with
    | .error e => { obj := obj, err := some e, tempLeft := false }
    | .ok b =>
      if ¬ env.writeOk then
        { obj := obj, err := some "failed to write entire object to temp file", tempLeft := false }
      else
        match env.transform b with
        | .error e => { obj := obj, err := some e, tempLeft := false }
        | .ok bb =>
          if ¬ env.openOk then
            { obj := obj, err := some "failed to open temp file after mutation", tempLeft := false }
          else if ¬ env.readOk then
            { obj := obj, err := some "failed to read temp file after mutation", tempLeft := false }
          else
            let r := obj.Unmarshal bb
            { obj := r.obj, err := r.err, tempLeft := false }

/-- Characters that survive a YAML emit/parse round trip unchanged
inside a plain scalar: letters and underscores, explicitly excluding
every character that is structural for the emitter or the parser. -/
def safeChar (c : Char) : Bool :=
  (c.isAlpha || c = '_')
    && !(c = ':' || c = ' ' || c = '\n' || c = '-' || c = '+' || c = '.'
        || c = '"' || c = '[' || c = ']' || c = ',' || c = '#' || c.isDigit)

/-- Strings that yaml.v2 emits as plain scalars and resolves back to
the same string: non-empty, made of safe characters, and not a boolean
or null spelling. -/
def plainSafe (s : Bytes) : Bool :=
  decide (s ≠ []) && s.all safeChar
    && decide (s ∉ yamlTrueLits) && decide (s ∉ yamlFalseLits)
    && decide (s ∉ yamlNullLits)

/-- Adjacent characters are never both dashes (such a buffer cannot
contain the separator `---`). -/
def notDD (a b : Char) : Prop := ¬ (a = '-' ∧ b = '-')

/-- The body section `Thought.Marshal` writes: the body, plus one
newline exactly when the body is non-empty. -/
def bodyOut (obj : Thought) : Bytes :=
  if obj.Body.length ≠ 0 then obj.Body ++ ['\n'] else obj.Body

/-- The buffer `Thought.Marshal` produces. -/
def marshalBytes (obj : Thought) : Bytes :=
  sepMarker ++ encodeFrontMatter obj ++ sepMarker ++ bodyOut obj

/-- The malformed-document predicate, case by case as the specification
enumerates it: empty buffer; separator missing; document does not start
exactly with the separator; header segment not valid key-value markup;
a recognized header field with a wrong value type. -/
def malformedDocument (b : Bytes) : Prop :=
  b = []
  ∨ (goSplitN sepMarker b 3).length ≠ 3
  ∨ (∃ p0 p1 p2, goSplitN sepMarker b 3 = [p0, p1, p2] ∧ p0 ≠ [])
  ∨ (∃ p0 p1 p2 e, goSplitN sepMarker b 3 = [p0, p1, p2]
      ∧ isWhitespaceOnly p1 = false
      ∧ parseEntries (splitLines p1) = .error e)
  ∨ (∃ p0 p1 p2 entries e, goSplitN sepMarker b 3 = [p0, p1, p2]
      ∧ isWhitespaceOnly p1 = false
      ∧ parseEntries (splitLines p1) = .ok entries
      ∧ decodeBuf entries = .error e)

/-- The header lines the emitter produces for the `tags` field: the
flow marker line for an empty slice, or a `tags:` line followed by one
block item line per tag. -/
def tagsLines : List Bytes → List Bytes
  | [] => ["tags: []".toList]
  | ts => "tags:".toList :: ts.map (fun t => '-' :: ' ' :: t)

end J

namespace J

/-- C6: on a non-empty queue whose discipline selects a valid index,
`Dequeue` removes the selected action, runs it, appends all of its
offspring to the pending list even when the run also returned an error,
and returns that error; consequently a queue holding one action with
exactly one (childless) offspring needs exactly one additional call
before the queue reports empty, whether or not the parent errored. -/
theorem claim_C6_offspring_enqueued (q : Queue)
    (hne : q.actions ≠ [])
    (h0 : 0 ≤ q.discipline q.actions)
    (hi : (q.discipline q.actions).toNat < q.actions.length) :
    (q.Dequeue.1 = DeqStatus.ok (q.actions.get ⟨(q.discipline q.actions).toNat, hi⟩)
        (decide ((q.actions.take (q.discipline q.actions).toNat
                    ++ q.actions.drop ((q.discipline q.actions).toNat + 1)
                    ++ (q.actions.get ⟨(q.discipline q.actions).toNat, hi⟩).offspring).length ≤ 0))
        (q.actions.get ⟨(q.discipline q.actions).toNat, hi⟩).err
      ∧ q.Dequeue.2.actions
          = q.actions.take (q.discipline q.actions).toNat
              ++ q.actions.drop ((q.discipline q.actions).toNat + 1)
              ++ (q.actions.get ⟨(q.discipline q.actions).toNat, hi⟩).offspring)
    ∧ (∀ (off : Action) (e : Option String), off.offspring = [] →
        (Queue.mk FifoDiscipline [Action.mk [off] e]).Dequeue.1
            = DeqStatus.ok (Action.mk [off] e) false e
          ∧ (Queue.mk FifoDiscipline [Action.mk [off] e]).Dequeue.2.Dequeue.1
              = DeqStatus.ok off true off.err) := by
  have hlen : ¬ q.actions.length ≤ 0 := by
    cases hq : q.actions with
    | nil => exact absurd hq hne
    | cons a t => simp [hq]
  have hne1 : ¬ q.discipline q.actions = -1 := by omega
  refine ⟨?_, ?_⟩
  · unfold Queue.Dequeue
    rw [if_neg hlen, if_neg hne1, dif_pos ⟨h0, hi⟩]
    exact ⟨rfl, rfl⟩
  · intro off e hoff
    constructor
    · simp [Queue.Dequeue, FifoDiscipline, Action.Run, Action.offspring, Action.err]
    · simp only [Action.offspring] at hoff
      simp [Queue.Dequeue, FifoDiscipline, Action.Run, Action.offspring, Action.err, hoff]

/-- Witness for C6 at a concrete one-element queue whose single action
errors and produces no offspring. -/
theorem claim_C6_offspring_enqueued_witness :
    (Queue.mk FifoDiscipline [Action.mk [] (some "boom")]).Dequeue.1
      = DeqStatus.ok (Action.mk [] (some "boom")) true (some "boom")
    ∧ (Queue.mk FifoDiscipline [Action.mk [Action.mk [] none] (some "boom")]).Dequeue.2.Dequeue.1
      = DeqStatus.ok (Action.mk [] none) true none := by
  refine ⟨?_, ?_⟩
  · exact (claim_C6_offspring_enqueued
      (Queue.mk FifoDiscipline [Action.mk [] (some "boom")])
      (by simp) (by decide) (by decide)).1.1
  · exact ((claim_C6_offspring_enqueued
      (Queue.mk FifoDiscipline [Action.mk [Action.mk [] none] (some "boom")])
      (by simp) (by decide) (by decide)).2 (Action.mk [] none) (some "boom") rfl).2

/-- C7 counterexample: the claim quantifies over arbitrary actions A, B,
C, but when A produces an offspring, the third `Dequeue` call still runs
C in order yet reports `final = false` (the offspring is still pending),
not `true` as claimed. -/
theorem claim_C7_counterexample :
    ((((NewQueue FifoDiscipline).Enqueue (Action.mk [Action.mk [] none] none)).Enqueue
        (Action.mk [] none)).Enqueue
        (Action.mk [] none)).Dequeue.2.Dequeue.2.Dequeue.1
      = DeqStatus.ok (Action.mk [] none) false none
    ∧ ¬ ((((NewQueue FifoDiscipline).Enqueue (Action.mk [Action.mk [] none] none)).Enqueue
        (Action.mk [] none)).Enqueue
        (Action.mk [] none)).Dequeue.2.Dequeue.2.Dequeue.1
      = DeqStatus.ok (Action.mk [] none) true none := by
  refine ⟨rfl, fun h => ?_⟩
  have h2 := (rfl :
    ((((NewQueue FifoDiscipline).Enqueue (Action.mk [Action.mk [] none] none)).Enqueue
        (Action.mk [] none)).Enqueue
        (Action.mk [] none)).Dequeue.2.Dequeue.2.Dequeue.1
      = DeqStatus.ok (Action.mk [] none) false none)
  rw [h2] at h
  exact absurd (DeqStatus.ok.inj h).2.1 (by decide)

/-- C7 (amended): enqueuing offspring-free actions A, B, C under the
FIFO discipline and calling `Dequeue` three times runs A, then B, then C
(whatever errors they return), with the is-queue-now-empty flag `false`,
`false`, `true` respectively.  Execution order A, B, C holds regardless
of offspring; the flag sequence additionally needs A, B, C to produce no
offspring. -/
theorem claim_C7_fifo_order (A B C : Action)
    (hA : A.offspring = []) (hB : B.offspring = []) (hC : C.offspring = []) :
    ((((NewQueue FifoDiscipline).Enqueue A).Enqueue B).Enqueue C).Dequeue.1
      = DeqStatus.ok A false A.err
    ∧ ((((NewQueue FifoDiscipline).Enqueue A).Enqueue B).Enqueue C).Dequeue.2.Dequeue.1
      = DeqStatus.ok B false B.err
    ∧ ((((NewQueue FifoDiscipline).Enqueue A).Enqueue B).Enqueue C).Dequeue.2.Dequeue.2.Dequeue.1
      = DeqStatus.ok C true C.err := by
  refine ⟨?_, ?_, ?_⟩
  · simp [NewQueue, Queue.Enqueue, Queue.Dequeue, FifoDiscipline, Action.Run, hA]
  · simp [NewQueue, Queue.Enqueue, Queue.Dequeue, FifoDiscipline, Action.Run, hA, hB]
  · simp [NewQueue, Queue.Enqueue, Queue.Dequeue, FifoDiscipline, Action.Run, hA, hB, hC]

/-- Witness for the amended C7 at three concrete offspring-free actions,
the middle one erroring. -/
theorem claim_C7_fifo_order_witness :
    ((((NewQueue FifoDiscipline).Enqueue (Action.mk [] none)).Enqueue
        (Action.mk [] (some "mid"))).Enqueue (Action.mk [] none)).Dequeue.1
      = DeqStatus.ok (Action.mk [] none) false none
    ∧ ((((NewQueue FifoDiscipline).Enqueue (Action.mk [] none)).Enqueue
        (Action.mk [] (some "mid"))).Enqueue (Action.mk [] none)).Dequeue.2.Dequeue.1
      = DeqStatus.ok (Action.mk [] (some "mid")) false (some "mid")
    ∧ ((((NewQueue FifoDiscipline).Enqueue (Action.mk [] none)).Enqueue
        (Action.mk [] (some "mid"))).Enqueue (Action.mk [] none)).Dequeue.2.Dequeue.2.Dequeue.1
      = DeqStatus.ok (Action.mk [] none) true none :=
  claim_C7_fifo_order (Action.mk [] none) (Action.mk [] (some "mid")) (Action.mk [] none)
    rfl rfl rfl

/-- C10: on a non-empty queue, `Dequeue` guards only against a
discipline result of exactly `-1`; any other out-of-range index is used
to subscript the pending list unchecked, which in Go is a runtime panic,
not an error return. -/
theorem claim_C10_unchecked_index (q : Queue)
    (hne : q.actions ≠ [])
    (hnm : q.discipline q.actions ≠ -1)
    (hout : q.discipline q.actions < 0
      ∨ (q.actions.length : Int) ≤ q.discipline q.actions) :
    q.Dequeue = (DeqStatus.panicked, q) := by
  have hlen : ¬ q.actions.length ≤ 0 := by
    cases hq : q.actions with
    | nil => exact absurd hq hne
    | cons a t => simp [hq]
  have hcond : ¬ (0 ≤ q.discipline q.actions
      ∧ (q.discipline q.actions).toNat < q.actions.length) := by
    rintro ⟨h0, hlt⟩
    rcases hout with h | h
    · omega
    · rw [Int.toNat_lt h0] at hlt
      omega
  unfold Queue.Dequeue
  rw [if_neg hlen, if_neg hnm, dif_neg hcond]

/-- Witness for C10: a discipline that returns `5` on a one-element
queue drives `Dequeue` into the unchecked out-of-range access. -/
theorem claim_C10_unchecked_index_witness :
    (Queue.mk (fun _ => 5) [Action.mk [] none]).Dequeue
      = (DeqStatus.panicked, Queue.mk (fun _ => 5) [Action.mk [] none]) :=
  claim_C10_unchecked_index (Queue.mk (fun _ => 5) [Action.mk [] none])
    (by simp) (by decide) (by decide)

end J

namespace J

/- ------------------------------------------------------------------ -/
/- Supporting lemmas for the document model                           -/
/- ------------------------------------------------------------------ -/

theorem marshal_eq (obj : Thought) : obj.Marshal = .ok (marshalBytes obj) := by
  simp [Thought.Marshal, Thought.marshalWith, marshalBytes, bytesJoin, bodyOut,
    List.append_assoc]

/-- `Thought.Unmarshal` either fails and leaves the receiver untouched,
or succeeds on a well-shaped buffer and rewrites exactly the
pending-review flag, the body and the Meta tags. -/
theorem unmarshal_spec (obj : Thought) (b : Bytes) :
    ((obj.Unmarshal b).err ≠ none ∧ (obj.Unmarshal b).obj = obj)
    ∨ (∃ p1 p2 fm, goSplitN sepMarker b 3 = [[], p1, p2]
        ∧ yamlUnmarshalFM p1 = .ok fm
        ∧ obj.Unmarshal b =
          { obj := { obj with PendingReview := fm.PendingReview
                              Body := trimRightNewlines p2
                              Meta := { obj.Meta with Tags := fm.Tags } }
            err := none
            warned := decide (fm.Class ≠ obj.Meta.Class) }) := by
  unfold Thought.Unmarshal
  split
  next p0 p1 p2 heq =>
    by_cases hp0 : p0 = []
    · subst hp0
      simp only [ne_eq, not_true_eq_false, if_false]
      cases hfm : yamlUnmarshalFM p1 with
      | error e => left; simp
      | ok fm =>
        right
        exact ⟨p1, p2, fm, heq, hfm, by simp [GoMeta.Update]⟩
    · left
      rw [if_pos hp0]
      simp
  next heq => left; simp

theorem unmarshal_err_preserves (obj : Thought) (b : Bytes)
    (h : (obj.Unmarshal b).err ≠ none) : (obj.Unmarshal b).obj = obj := by
  rcases unmarshal_spec obj b with ⟨_, hobj⟩ | ⟨p1, p2, fm, _, _, hres⟩
  · exact hobj
  · rw [hres] at h
    simp at h

theorem unmarshal_class_eq (obj : Thought) (b : Bytes) :
    (obj.Unmarshal b).obj.Meta.Class = obj.Meta.Class := by
  rcases unmarshal_spec obj b with ⟨_, hobj⟩ | ⟨p1, p2, fm, _, _, hres⟩
  · rw [hobj]
  · rw [hres]

/-- `Thought.Mutate` either fails before re-parsing and leaves the
receiver untouched, or hands the marshaled bytes to the transform and
finishes with `Unmarshal` of the transform's output. -/
theorem mutate_cases (obj : Thought) (env : MutateEnv) :
    ((obj.Mutate env).obj = obj ∧ (obj.Mutate env).err ≠ none)
    ∨ (∃ bb, env.transform (marshalBytes obj) = .ok bb
        ∧ (obj.Mutate env).obj = (obj.Unmarshal bb).obj
        ∧ (obj.Mutate env).err = (obj.Unmarshal bb).err) := by
  unfold Thought.Mutate
  rw [marshal_eq obj]
  by_cases h1 : env.tempOk
  · by_cases h2 : env.absOk
    · by_cases h3 : env.writeOk
      · cases htr : env.transform (marshalBytes obj) with
        | error e => left; simp [h1, h2, h3, htr]
        | ok bb =>
          by_cases h4 : env.openOk
          · by_cases h5 : env.readOk
            · right; exact ⟨bb, rfl, by simp [h1, h2, h3, h4, h5, htr]⟩
            · left; simp [h1, h2, h3, h4, h5, htr]
          · left; simp [h1, h2, h3, h4, htr]
      · left; simp [h1, h2, h3]
    · left; simp [h1, h2]
  · left; simp [h1]

/-- On a transform failure (all earlier steps succeeding), `Mutate`
returns the transform's error, the unchanged receiver, and no leftover
temp file. -/
theorem mutate_transform_error (obj : Thought) (env : MutateEnv) (e : String)
    (h1 : env.tempOk = true) (h2 : env.absOk = true) (h3 : env.writeOk = true)
    (htr : env.transform (marshalBytes obj) = .error e) :
    obj.Mutate env = { obj := obj, err := some e, tempLeft := false } := by
  unfold Thought.Mutate
  rw [marshal_eq obj]
  simp [h1, h2, h3, htr]

/-- A successfully decoded, non-empty header always carries a non-nil
tags slice (the `UnmarshalYAML` normalization). -/
theorem yamlFM_tags_some (p1 : Bytes) (fm : GoFrontMatter)
    (hw : isWhitespaceOnly p1 = false)
    (hfm : yamlUnmarshalFM p1 = .ok fm) : ∃ ts, fm.Tags = some ts := by
  unfold yamlUnmarshalFM at hfm
  rw [hw] at hfm
  simp only [Bool.false_eq_true, if_false] at hfm
  revert hfm
  cases parseEntries (splitLines p1) with
  | error e => intro hfm; simp at hfm
  | ok entries =>
    intro hfm
    dsimp only at hfm
    split at hfm
    next e2 heq => simp at hfm
    next buf heq =>
      simp only [Except.ok.injEq] at hfm
      exact ⟨buf.Tags.getD [], by rw [← hfm]⟩

end J

namespace J

/- ------------------------------------------------------------------ -/
/- Document-model claims                                              -/
/- ------------------------------------------------------------------ -/

/-- C1: Mutate is all-or-nothing: whenever `Mutate` returns an error —
from temp-file creation, path resolution, writing, the transform, the
re-open/re-read, or the re-parse — every field of the receiver is
unchanged; and when specifically the transform fails (all earlier steps
succeeding), the returned error is the transform's and the temporary
file no longer exists after the call. -/
theorem claim_C1_mutate_atomicity (obj : Thought) (env : MutateEnv) :
    ((obj.Mutate env).err ≠ none → (obj.Mutate env).obj = obj)
    ∧ (∀ e : String, env.tempOk = true → env.absOk = true → env.writeOk = true →
        env.transform (marshalBytes obj) = .error e →
        (obj.Mutate env).err = some e ∧ (obj.Mutate env).obj = obj
          ∧ (obj.Mutate env).tempLeft = false) := by
  constructor
  · intro herr
    rcases mutate_cases obj env with ⟨hobj, _⟩ | ⟨bb, _, hobj, herr2⟩
    · exact hobj
    · rw [hobj]
      exact unmarshal_err_preserves obj bb (by rw [← herr2]; exact herr)
  · intro e h1 h2 h3 htr
    rw [mutate_transform_error obj env e h1 h2 h3 htr]
    exact ⟨rfl, rfl, rfl⟩

/-- Witness for C1: a transform that always fails leaves a concrete
Thought untouched, returns the transform's error, and the temp file is
gone. -/
theorem claim_C1_mutate_atomicity_witness :
    (NewThought.Mutate
        { tempOk := true, absOk := true, writeOk := true, openOk := true
          readOk := true, transform := fun _ => .error "editor failed" }).err
      = some "editor failed"
    ∧ (NewThought.Mutate
        { tempOk := true, absOk := true, writeOk := true, openOk := true
          readOk := true, transform := fun _ => .error "editor failed" }).obj
      = NewThought
    ∧ (NewThought.Mutate
        { tempOk := true, absOk := true, writeOk := true, openOk := true
          readOk := true, transform := fun _ => .error "editor failed" }).tempLeft
      = false := by
  have h := (claim_C1_mutate_atomicity NewThought
    { tempOk := true, absOk := true, writeOk := true, openOk := true
      readOk := true, transform := fun _ => .error "editor failed" }).2
    "editor failed" rfl rfl rfl rfl
  exact ⟨h.1, h.2.1, h.2.2⟩

/-- C3: the marshal output is bit-exact: `"---\n"`, then the header
with the fields in the fixed order class, tags, pending_review, then
`"---\n"`, then the body with a single `"\n"` appended exactly when the
body is non-empty; an empty (non-nil) tags slice is encoded as the
explicit empty-sequence literal `tags: []`, never omitted or null. -/
theorem claim_C3_marshal_format (obj : Thought) :
    obj.Marshal = .ok ("---\n".toList
        ++ ("class: ".toList ++ encodeScalar obj.Meta.Class ++ ['\n'])
        ++ encodeTags obj.Meta.Tags
        ++ ("pending_review: ".toList
            ++ (if obj.PendingReview then "true".toList else "false".toList) ++ ['\n'])
        ++ "---\n".toList
        ++ (obj.Body ++ (if obj.Body = [] then [] else ['\n'])))
    ∧ encodeTags (some []) = "tags: []\n".toList := by
  refine ⟨?_, by decide⟩
  have h1 : "---\n".toList = sepMarker := by decide
  rw [h1, marshal_eq obj]
  unfold marshalBytes encodeFrontMatter bodyOut
  cases hb : obj.Body with
  | nil => simp
  | cons c bs => simp [List.append_assoc]

/-- C5: class immutability: `Unmarshal` (and hence `Mutate`) never
changes `Meta.Class`; on any accepted input, a header whose class
differs from the object's is reported by the warning, not by an error,
and is not applied. -/
theorem claim_C5_class_immutability (obj : Thought) (b : Bytes) (env : MutateEnv) :
    (obj.Unmarshal b).obj.Meta.Class = obj.Meta.Class
    ∧ (obj.Mutate env).obj.Meta.Class = obj.Meta.Class
    ∧ (∀ p1 p2 fm, goSplitN sepMarker b 3 = [[], p1, p2] →
        yamlUnmarshalFM p1 = .ok fm →
        (obj.Unmarshal b).err = none
          ∧ ((obj.Unmarshal b).warned = true ↔ fm.Class ≠ obj.Meta.Class)) := by
  refine ⟨unmarshal_class_eq obj b, ?_, ?_⟩
  · rcases mutate_cases obj env with ⟨hobj, _⟩ | ⟨bb, _, hobj, _⟩
    · rw [hobj]
    · rw [hobj]; exact unmarshal_class_eq obj bb
  · intro p1 p2 fm hs hfm
    unfold Thought.Unmarshal
    rw [hs]
    dsimp only
    rw [hfm]
    simp only [ne_eq, not_true_eq_false, if_false]
    constructor
    · trivial
    · simp [GoMeta.Update]

/-- Witness for C5: unmarshaling a header that tries to switch the
class to `journal` succeeds, keeps class `thought`, and logs the
warning. -/
theorem claim_C5_class_immutability_witness :
    (NewThought.Unmarshal "---\nclass: journal\n---\nhi".toList).obj.Meta.Class
      = "thought".toList
    ∧ (NewThought.Unmarshal "---\nclass: journal\n---\nhi".toList).err = none
    ∧ (NewThought.Unmarshal "---\nclass: journal\n---\nhi".toList).warned = true := by
  have h := claim_C5_class_immutability NewThought
    "---\nclass: journal\n---\nhi".toList
    { tempOk := true, absOk := true, writeOk := true, openOk := true
      readOk := true, transform := fun bb => .ok bb }
  have h3 := h.2.2 "class: journal\n".toList "hi".toList
    { Class := "journal".toList, Tags := some [], PendingReview := false }
    (by decide) rfl
  refine ⟨?_, h3.1, ?_⟩
  · rw [h.1]; decide
  · exact h3.2.mpr (by decide)

/-- C8 counterexample: the claim says the tags field is never nil after
any successful `Unmarshal`, but a document with an entirely empty
header section parses as zero YAML documents, `UnmarshalYAML` is never
invoked, and `Meta.Update` copies the zero FrontMatter's nil tags slice
into the object: `Unmarshal` succeeds and leaves `Tags` nil. -/
theorem claim_C8_counterexample :
    (NewThought.Unmarshal "---\n---\n".toList).err = none
    ∧ (NewThought.Unmarshal "---\n---\n".toList).obj.Meta.Tags = none := by
  exact ⟨by decide, by decide⟩

/-- C8 (amended): provided the header segment actually contains a YAML
document (is not empty or all whitespace), every successful `Unmarshal`
yields a non-nil tags sequence; a null (or absent) `tags` field yields
the empty sequence, and `tags: [foo, bar]` yields exactly
`["foo", "bar"]` in order.  (With an entirely blank header the zero
FrontMatter's nil slice is copied in instead.) -/
theorem claim_C8_tag_normalization (obj : Thought) (b p1 p2 : Bytes)
    (hsplit : goSplitN sepMarker b 3 = [[], p1, p2])
    (hdoc : isWhitespaceOnly p1 = false)
    (hok : (obj.Unmarshal b).err = none) :
    (∃ ts, (obj.Unmarshal b).obj.Meta.Tags = some ts)
    ∧ (obj.Unmarshal "---\nclass: thought\ntags:\n---\nx".toList).obj.Meta.Tags
        = some []
    ∧ (obj.Unmarshal "---\ntags: [foo, bar]\n---\nx".toList).obj.Meta.Tags
        = some ["foo".toList, "bar".toList] := by
  refine ⟨?_, rfl, rfl⟩
  unfold Thought.Unmarshal at hok ⊢
  rw [hsplit] at hok ⊢
  dsimp only at hok ⊢
  simp only [ne_eq, not_true_eq_false, if_false] at hok ⊢
  cases hfm : yamlUnmarshalFM p1 with
  | error e => rw [hfm] at hok; simp at hok
  | ok fm =>
    dsimp only
    rcases yamlFM_tags_some p1 fm hdoc hfm with ⟨ts, hts⟩
    exact ⟨ts, by simp [GoMeta.Update, hts]⟩

/-- Witness for C8 (amended) at a concrete null-tags document. -/
theorem claim_C8_tag_normalization_witness :
    (NewThought.Unmarshal "---\ntags:\n---\nx".toList).obj.Meta.Tags = some []
    ∧ (NewThought.Unmarshal "---\ntags: [foo, bar]\n---\nx".toList).obj.Meta.Tags
        = some ["foo".toList, "bar".toList] := by
  have h := claim_C8_tag_normalization NewThought "---\ntags:\n---\nx".toList
    "tags:\n".toList "x".toList (by decide) (by decide) (by decide)
  have h1 : (NewThought.Unmarshal "---\ntags:\n---\nx".toList).obj.Meta.Tags = some [] := by
    decide
  exact ⟨h1, h.2.2⟩

/-- C9: the source of `Thought.Marshal` swallows a header-encoder
failure: on `yaml.Marshal` returning an error it executes
`return []byte{}, nil`, handing the caller an empty buffer and a NIL
error — contradicting the claim (and `Mutate`'s own documented reliance
on marshal errors being reported).  The theorem evaluates the marshal
skeleton at a failing encoder result. -/
theorem claim_C9_marshal_swallows_encoder_error :
    NewThought.marshalWith (.error "encoder failure") = .ok []
    ∧ (∀ (obj : Thought) (e : String), obj.marshalWith (.error e) = .ok []) :=
  ⟨rfl, fun _ _ => rfl⟩

end J

namespace J

/-- C4: `Unmarshal` fails exactly on malformed input — empty buffer,
missing separator, document not starting with the separator, a header
segment that is not valid key-value markup, or a recognized field of
the wrong type — and on any such error the receiver keeps its prior
field values. -/
theorem claim_C4_unmarshal_error_iff (obj : Thought) (b : Bytes) :
    ((obj.Unmarshal b).err ≠ none ↔ malformedDocument b)
    ∧ ((obj.Unmarshal b).err ≠ none → (obj.Unmarshal b).obj = obj) := by
  refine ⟨⟨?_, ?_⟩, unmarshal_err_preserves obj b⟩
  · -- error implies malformed
    intro herr
    unfold Thought.Unmarshal at herr
    split at herr
    next p0 p1 p2 heq =>
      by_cases hp0 : p0 = []
      · subst hp0
        simp only [ne_eq, not_true_eq_false, if_false] at herr
        cases hfm : yamlUnmarshalFM p1 with
        | ok fm => rw [hfm] at herr; simp at herr
        | error e =>
          unfold yamlUnmarshalFM at hfm
          cases hw : isWhitespaceOnly p1 with
          | true => rw [hw] at hfm; simp at hfm
          | false =>
            rw [hw] at hfm
            simp only [Bool.false_eq_true, if_false] at hfm
            revert hfm
            cases hpe : parseEntries (splitLines p1) with
            | error e2 =>
              intro hfm
              right; right; right; left
              exact ⟨[], p1, p2, e2, heq, hw, hpe⟩
            | ok entries =>
              intro hfm
              dsimp only at hfm
              revert hfm
              cases hdb : decodeBuf entries with
              | error e3 =>
                intro hfm
                right; right; right; right
                exact ⟨[], p1, p2, entries, e3, heq, hw, hpe, hdb⟩
              | ok buf => intro hfm; simp at hfm
      · right; right; left
        exact ⟨p0, p1, p2, heq, hp0⟩
    next hne =>
      right; left
      intro h3
      rcases List.length_eq_three.mp h3 with ⟨x, y, z, hxyz⟩
      exact hne x y z hxyz
  · -- malformed implies error
    intro hm
    rcases hm with hb | hlen | ⟨p0, p1, p2, heq, hp0⟩
      | ⟨p0, p1, p2, e, heq, hw, hpe⟩ | ⟨p0, p1, p2, entries, e, heq, hw, hpe, hdb⟩
    · subst hb
      have h : (obj.Unmarshal []).err
          = some "File must have 3 sections separated by the marker" := rfl
      rw [h]
      simp
    · unfold Thought.Unmarshal
      split
      next p0 p1 p2 heq => rw [heq] at hlen; simp at hlen
      next hne => simp
    · by_cases hp00 : p0 = []
      · subst hp00
        exact absurd rfl hp0
      · unfold Thought.Unmarshal
        rw [heq]
        dsimp only
        rw [if_pos hp00]
        simp
    · have hfm : yamlUnmarshalFM p1 = .error e := by
        unfold yamlUnmarshalFM
        rw [hw]
        simp only [Bool.false_eq_true, if_false]
        rw [hpe]
      by_cases hp00 : p0 = []
      · subst hp00
        unfold Thought.Unmarshal
        rw [heq]
        dsimp only
        simp only [ne_eq, not_true_eq_false, if_false]
        rw [hfm]
        simp
      · unfold Thought.Unmarshal
        rw [heq]
        dsimp only
        rw [if_pos hp00]
        simp
    · have hfm : yamlUnmarshalFM p1 = .error e := by
        unfold yamlUnmarshalFM
        rw [hw]
        simp only [Bool.false_eq_true, if_false]
        rw [hpe]
        dsimp only
        rw [hdb]
      by_cases hp00 : p0 = []
      · subst hp00
        unfold Thought.Unmarshal
        rw [heq]
        dsimp only
        simp only [ne_eq, not_true_eq_false, if_false]
        rw [hfm]
        simp
      · unfold Thought.Unmarshal
        rw [heq]
        dsimp only
        rw [if_pos hp00]
        simp

/-- Witness for C4 at a concrete buffer without any separator. -/
theorem claim_C4_unmarshal_error_iff_witness :
    (NewThought.Unmarshal "no separator here".toList).err ≠ none
    ∧ (NewThought.Unmarshal "no separator here".toList).obj = NewThought := by
  have h := claim_C4_unmarshal_error_iff NewThought "no separator here".toList
  have herr : (NewThought.Unmarshal "no separator here".toList).err ≠ none :=
    h.1.mpr (Or.inr (Or.inl (by decide)))
  exact ⟨herr, h.2 herr⟩

end J

namespace J

theorem notDD_of_left (x y : Char) (hx : x ≠ '-') : notDD x y := fun h => hx h.1

theorem notDD_of_right (x y : Char) (hy : y ≠ '-') : notDD x y := fun h => hy h.2

theorem firstSplit_self (t : Bytes) :
    firstSplit sepMarker (sepMarker ++ t) = some ([], t) := by
  have hpre : List.isPrefixOf sepMarker ('-' :: '-' :: '-' :: '\n' :: t) = true := by
    rw [List.isPrefixOf_iff_prefix]
    exact List.prefix_append sepMarker t
  show firstSplit sepMarker ('-' :: ('-' :: '-' :: '\n' :: t)) = some ([], t)
  rw [firstSplit]
  rw [if_pos hpre]
  simp [sepMarker]

theorem firstSplit_marker_mid (y b : Bytes) (h : List.Chain' notDD y) :
    firstSplit sepMarker (y ++ sepMarker ++ b) = some (y, b) := by
  induction y with
  | nil => simpa using firstSplit_self b
  | cons c y2 ih =>
    have hch : List.Chain' notDD y2 := h.tail
    have hnp : sepMarker.isPrefixOf (c :: (y2 ++ sepMarker ++ b)) = false := by
      by_cases hc : c = '-'
      · subst hc
        cases y2 with
        | nil => simp [sepMarker, List.isPrefixOf]
        | cons d y3 =>
          have hd : notDD '-' d := (List.chain'_cons.mp h).1
          have hd2 : d ≠ '-' := fun hdd => hd ⟨rfl, hdd⟩
          simp [sepMarker, List.isPrefixOf, hd2, Ne.symm hd2]
      · simp [sepMarker, List.isPrefixOf, hc, Ne.symm hc]
    show firstSplit sepMarker (c :: (y2 ++ sepMarker ++ b)) = some (c :: y2, b)
    rw [firstSplit, hnp]
    simp only [Bool.false_eq_true, if_false]
    rw [ih hch]

theorem goSplitN_marker (y b : Bytes) (h : List.Chain' notDD y) :
    goSplitN sepMarker (sepMarker ++ y ++ sepMarker ++ b) 3 = [[], y, b] := by
  have h1 : firstSplit sepMarker (sepMarker ++ (y ++ sepMarker ++ b))
      = some ([], y ++ sepMarker ++ b) := firstSplit_self _
  have h2 : firstSplit sepMarker (y ++ sepMarker ++ b) = some (y, b) :=
    firstSplit_marker_mid y b h
  show goSplitN sepMarker (sepMarker ++ (y ++ sepMarker ++ b)) 3 = [[], y, b]
  rw [goSplitN, h1]
  dsimp only
  rw [goSplitN, h2]
  rfl

end J

namespace J

theorem safeChar_spec (c : Char) (h : safeChar c = true) :
    c ≠ ':' ∧ c ≠ ' ' ∧ c ≠ '\n' ∧ c ≠ '-' ∧ c ≠ '+' ∧ c ≠ '.'
      ∧ c ≠ '"' ∧ c ≠ '[' ∧ c.isDigit = false := by
  simp [safeChar] at h
  obtain ⟨-, ⟨⟨⟨⟨⟨⟨⟨⟨⟨⟨hcol, hsp⟩, hnl⟩, hdash⟩, hplus⟩, hdot⟩, hq⟩, hlb⟩, hrb⟩,
    hcomma⟩, hhash⟩, hdig⟩ := h
  exact ⟨hcol, hsp, hnl, hdash, hplus, hdot, hq, hlb, hdig⟩

theorem plainSafe_spec (s : Bytes) (h : plainSafe s = true) :
    s ≠ [] ∧ (∀ c ∈ s, safeChar c = true)
      ∧ s ∉ yamlTrueLits ∧ s ∉ yamlFalseLits ∧ s ∉ yamlNullLits := by
  unfold plainSafe at h
  simp only [Bool.and_eq_true, decide_eq_true_eq, List.all_eq_true] at h
  exact ⟨h.1.1.1.1, h.1.1.1.2, h.1.1.2, h.1.2, h.2⟩

end J

namespace J

theorem chain'_notDD_of_no_dash (l : Bytes) (h : ∀ c ∈ l, c ≠ '-') :
    List.Chain' notDD l := by
  induction l with
  | nil => simp
  | cons c l2 ih =>
    cases l2 with
    | nil => simp
    | cons d l3 =>
      rw [List.chain'_cons]
      exact ⟨notDD_of_left c d (h c (by simp)),
        ih (fun x hx => h x (by simp [hx]))⟩

theorem chain'_notDD_flatten (fs : List Bytes)
    (h : ∀ f ∈ fs, List.Chain' notDD f ∧ ∀ x ∈ f.getLast?, x ≠ '-') :
    List.Chain' notDD fs.flatten := by
  induction fs with
  | nil => simp
  | cons f fs2 ih =>
    rw [List.flatten_cons]
    apply List.chain'_append.mpr
    refine ⟨(h f (by simp)).1, ih (fun g hg => h g (by simp [hg])), ?_⟩
    intro x hx y hy
    exact notDD_of_left x y ((h f (by simp)).2 x hx)

/-- Trimming a buffer with no spaces is the identity. -/
theorem dropWhile_no (p : Char → Bool) (l : Bytes) (h : ∀ c ∈ l, p c = false) :
    l.dropWhile p = l := by
  cases l with
  | nil => rfl
  | cons c l2 => simp [List.dropWhile_cons, h c (by simp)]

theorem trimSpaces_no_space (l : Bytes) (h : ∀ c ∈ l, c ≠ ' ') : trimSpaces l = l := by
  have hp : ∀ c ∈ l, (fun c => decide (c = ' ')) c = false := by
    intro c hc; simpa using h c hc
  have h1 : trimLeftSpaces l = l := dropWhile_no _ l hp
  have h2 : trimRightSpaces l = l := by
    unfold trimRightSpaces
    rw [dropWhile_no _ l.reverse (fun c hc => hp c (List.mem_reverse.mp hc))]
    exact List.reverse_reverse l
  rw [trimSpaces, h1, h2]

theorem trimSpaces_space_cons (l : Bytes) (h : ∀ c ∈ l, c ≠ ' ') :
    trimSpaces (' ' :: l) = l := by
  have hp : ∀ c ∈ l, (fun c => decide (c = ' ')) c = false := by
    intro c hc; simpa using h c hc
  unfold trimSpaces trimLeftSpaces
  rw [List.dropWhile_cons, if_pos (by decide), dropWhile_no _ l hp]
  unfold trimRightSpaces
  rw [dropWhile_no _ l.reverse (fun c hc => hp c (List.mem_reverse.mp hc))]
  exact List.reverse_reverse l

theorem splitKeyColon_concat (k v : Bytes) (hk : ∀ c ∈ k, c ≠ ':') :
    splitKeyColon (k ++ ':' :: v) = some (k, v) := by
  induction k with
  | nil => simp [splitKeyColon]
  | cons c k2 ih =>
    have hc : c ≠ ':' := hk c (by simp)
    show splitKeyColon (c :: (k2 ++ ':' :: v)) = some (c :: k2, v)
    rw [splitKeyColon, if_neg hc, ih (fun x hx => hk x (by simp [hx]))]

theorem splitLines_append (a t : Bytes) (h : ∀ c ∈ a, c ≠ '\n') :
    splitLines (a ++ '\n' :: t) = a :: splitLines t := by
  induction a with
  | nil => simp [splitLines]
  | cons c a2 ih =>
    have hc : c ≠ '\n' := h c (by simp)
    show splitLines (c :: (a2 ++ '\n' :: t)) = (c :: a2) :: splitLines t
    rw [splitLines, if_neg hc, ih (fun x hx => h x (by simp [hx]))]

end J

namespace J

theorem seqItem?_not_item (l : Bytes) (h1 : l.head? ≠ some ' ') (h2 : l.head? ≠ some '-') :
    seqItem? l = none := by
  have htl : trimLeftSpaces l = l := by
    cases l with
    | nil => rfl
    | cons c l2 =>
      have : ¬ c = ' ' := by intro hc; exact h1 (by simp [hc])
      simp [trimLeftSpaces, List.dropWhile_cons, this]
  unfold seqItem?
  rw [htl, if_neg h2]

theorem seqItem?_item (t : Bytes) (h : ∀ c ∈ t, c ≠ ' ') :
    seqItem? ('-' :: ' ' :: t) = some t := by
  have htl : trimLeftSpaces ('-' :: ' ' :: t) = '-' :: ' ' :: t := by
    simp [trimLeftSpaces, List.dropWhile_cons]
  unfold seqItem?
  rw [htl]
  rw [if_pos (show (('-' :: ' ' :: t : Bytes)).head? = some '-' from rfl)]
  rw [if_neg (show ¬ (('-' :: ' ' :: t : Bytes)).tail = [] from by simp)]
  rw [if_pos (show (('-' :: ' ' :: t : Bytes)).tail.head? = some ' ' from rfl)]
  show some (trimSpaces t) = some t
  rw [trimSpaces_no_space t h]

theorem isBlank_cons_false (c : Char) (l : Bytes) (hc : c ≠ ' ') :
    isBlank (c :: l) = false := by
  simp [isBlank, hc]

theorem takeSeqItems_stop (rest : List Bytes)
    (hrest : ∀ l ∈ rest.head?, seqItem? l = none) :
    takeSeqItems rest = ([], rest) := by
  cases rest with
  | nil => rfl
  | cons l r2 =>
    unfold takeSeqItems
    rw [hrest l (by simp)]

theorem takeSeqItems_items (ts rest : List Bytes)
    (hts : ∀ t ∈ ts, ∀ c ∈ t, c ≠ ' ')
    (hrest : ∀ l ∈ rest.head?, seqItem? l = none) :
    takeSeqItems (ts.map (fun t => '-' :: ' ' :: t) ++ rest) = (ts, rest) := by
  induction ts with
  | nil => simpa using takeSeqItems_stop rest hrest
  | cons t ts2 ih =>
    show takeSeqItems (('-' :: ' ' :: t) :: (ts2.map (fun t => '-' :: ' ' :: t) ++ rest))
      = (t :: ts2, rest)
    unfold takeSeqItems
    rw [seqItem?_item t (hts t (by simp))]
    rw [ih (fun x hx => hts x (by simp [hx]))]

theorem resolveScalar_plain (s : Bytes) (h : plainSafe s = true) :
    resolveScalar s = .strS s := by
  obtain ⟨hne, hall, ht, hf, hn⟩ := plainSafe_spec s h
  unfold resolveScalar
  rw [if_neg, if_neg, if_neg, if_neg, if_neg]
  · -- numeric
    cases s with
    | nil => exact absurd rfl hne
    | cons c s2 =>
      intro hnum
      unfold isNumericLit at hnum
      obtain ⟨-, -, -, hd, hp, hdot, -, -, hdig⟩ := safeChar_spec c (hall c (by simp))
      simp [hd, hp, hdot, hdig] at hnum
  · exact hf
  · exact ht
  · exact hn
  · -- quoted
    cases s with
    | nil => exact absurd rfl hne
    | cons c s2 =>
      intro hq
      obtain ⟨-, -, -, -, -, -, hqc, -, -⟩ := safeChar_spec c (hall c (by simp))
      exact hqc (by simpa using hq.1)

theorem mapM_decode_plain (ts : List Bytes) (h : ∀ t ∈ ts, plainSafe t = true) :
    ts.mapM (fun it => decodeStringVal (.scalarV it)) = .ok ts := by
  induction ts with
  | nil => rfl
  | cons t ts2 ih =>
    have hd : decodeStringVal (.scalarV t) = .ok t := by
      unfold decodeStringVal
      dsimp only
      rw [resolveScalar_plain t (h t (by simp))]
    rw [List.mapM_cons, hd, ih (fun x hx => h x (by simp [hx]))]
    rfl

end J

namespace J

theorem takeSeqItems_rest_le (ls : List Bytes) :
    (takeSeqItems ls).2.length ≤ ls.length := by
  induction ls with
  | nil => simp [takeSeqItems]
  | cons l rest ih =>
    unfold takeSeqItems
    cases seqItem? l with
    | some it => simpa using Nat.le_succ_of_le ih
    | none => simp

/-- The fuel argument of `parseEntriesF` is irrelevant as long as it
exceeds the number of lines. -/
theorem parseEntriesF_fuel (f1 f2 : Nat) (ls : List Bytes)
    (h1 : ls.length < f1) (h2 : ls.length < f2) :
    parseEntriesF f1 ls = parseEntriesF f2 ls := by
  induction f1 generalizing f2 ls with
  | zero => omega
  | succ f1 ih =>
    cases f2 with
    | zero => omega
    | succ f2 =>
      cases ls with
      | nil => rfl
      | cons l rest =>
        have hr1 : rest.length < f1 := by
          simp only [List.length_cons] at h1
          omega
        have hr2 : rest.length < f2 := by
          simp only [List.length_cons] at h2
          omega
        have hp1 : (takeSeqItems rest).2.length < f1 :=
          Nat.lt_of_le_of_lt (takeSeqItems_rest_le rest) hr1
        have hp2 : (takeSeqItems rest).2.length < f2 :=
          Nat.lt_of_le_of_lt (takeSeqItems_rest_le rest) hr2
        unfold parseEntriesF
        split
        · exact ih f2 rest hr1 hr2
        · split
          · rfl
          · split
            · rfl
            · split
              · dsimp only
                split
                · rw [ih f2 (takeSeqItems rest).2 hp1 hp2]
                · rw [ih f2 (takeSeqItems rest).2 hp1 hp2]
              · split
                · dsimp only
                  split
                  · split
                    · rw [ih f2 rest hr1 hr2]
                    · rfl
                  · rw [ih f2 rest hr1 hr2]
                · rfl

end J

namespace J

/-- One `parseEntriesF` step on a plain `key: value` mapping line. -/
theorem parseEntriesF_kv (fuel : Nat) (k v : Bytes) (rest : List Bytes)
    (hk1 : ∀ c ∈ k, c ≠ ':') (hkns : ∀ c ∈ k, c ≠ ' ')
    (hk3 : k.head? ≠ some '-') (hk4 : k ≠ [])
    (hv : ∀ c ∈ v, c ≠ ' ') (hvlb : v.head? ≠ some '[') :
    parseEntriesF (fuel + 1) ((k ++ ':' :: ' ' :: v) :: rest)
      = (parseEntriesF fuel rest).map (fun es => (k, .scalarV v) :: es) := by
  obtain ⟨c, k2, hck⟩ : ∃ c k2, k = c :: k2 := by
    cases k with
    | nil => exact absurd rfl hk4
    | cons c k2 => exact ⟨c, k2, rfl⟩
  have hline : (k ++ ':' :: ' ' :: v) = c :: (k2 ++ ':' :: ' ' :: v) := by
    rw [hck]; rfl
  have hcsp : c ≠ ' ' := hkns c (by rw [hck]; simp)
  have hcdash : c ≠ '-' := by
    intro hc
    exact hk3 (by rw [hck, hc]; rfl)
  have hblank : isBlank (k ++ ':' :: ' ' :: v) = false := by
    rw [hline]; exact isBlank_cons_false c _ hcsp
  have hseq : seqItem? (k ++ ':' :: ' ' :: v) = none := by
    apply seqItem?_not_item
    · rw [hline]; simpa using hcsp
    · rw [hline]; simpa using hcdash
  have hcolon : splitKeyColon (k ++ ':' :: ' ' :: v) = some (k, ' ' :: v) :=
    splitKeyColon_concat k (' ' :: v) hk1
  rw [parseEntriesF, if_neg (by rw [hblank]; simp), if_neg (by rw [hseq]; simp), hcolon]
  dsimp only
  rw [if_neg (show ¬ (' ' :: v = ([] : Bytes)) from by simp)]
  rw [if_pos (show ((' ' :: v : Bytes)).head? = some ' ' from rfl)]
  rw [trimSpaces_space_cons v hv]
  rw [if_neg hvlb, trimSpaces_no_space k hkns]

/-- One `parseEntriesF` step on a `key:` line followed by a non-empty
run of block-sequence item lines. -/
theorem parseEntriesF_keyBlock (fuel : Nat) (k : Bytes) (ts rest : List Bytes)
    (hk1 : ∀ c ∈ k, c ≠ ':') (hkns : ∀ c ∈ k, c ≠ ' ')
    (hk3 : k.head? ≠ some '-') (hk4 : k ≠ [])
    (hne : ts ≠ [])
    (hts : ∀ t ∈ ts, ∀ c ∈ t, c ≠ ' ')
    (hrest : ∀ l ∈ rest.head?, seqItem? l = none) :
    parseEntriesF (fuel + 1) ((k ++ [':']) :: (ts.map (fun t => '-' :: ' ' :: t) ++ rest))
      = (parseEntriesF fuel rest).map (fun es => (k, .seqV ts) :: es) := by
  obtain ⟨c, k2, hck⟩ : ∃ c k2, k = c :: k2 := by
    cases k with
    | nil => exact absurd rfl hk4
    | cons c k2 => exact ⟨c, k2, rfl⟩
  have hline : (k ++ [':']) = c :: (k2 ++ [':']) := by rw [hck]; rfl
  have hcsp : c ≠ ' ' := hkns c (by rw [hck]; simp)
  have hcdash : c ≠ '-' := by
    intro hc
    exact hk3 (by rw [hck, hc]; rfl)
  have hblank : isBlank (k ++ [':']) = false := by
    rw [hline]; exact isBlank_cons_false c _ hcsp
  have hseq : seqItem? (k ++ [':']) = none := by
    apply seqItem?_not_item
    · rw [hline]; simpa using hcsp
    · rw [hline]; simpa using hcdash
  have hcolon : splitKeyColon (k ++ [':']) = some (k, []) :=
    splitKeyColon_concat k [] hk1
  rw [parseEntriesF, if_neg (by rw [hblank]; simp), if_neg (by rw [hseq]; simp), hcolon]
  dsimp only
  rw [if_pos rfl]
  rw [takeSeqItems_items ts rest hts hrest]
  dsimp only
  rw [if_neg hne, trimSpaces_no_space k hkns]

/-- One `parseEntriesF` step on an empty (blank) line. -/
theorem parseEntriesF_blank (fuel : Nat) (rest : List Bytes) :
    parseEntriesF (fuel + 1) (([] : Bytes) :: rest) = parseEntriesF fuel rest := by
  rw [parseEntriesF, if_pos (show isBlank ([] : Bytes) = true from rfl)]

end J

namespace J

theorem head?_ne_of_all (s : Bytes) (x : Char) (h : ∀ c ∈ s, c ≠ x) :
    s.head? ≠ some x := by
  cases s with
  | nil => simp
  | cons c s2 =>
    simp only [List.head?_cons, ne_eq, Option.some.injEq]
    exact h c (by simp)

theorem plainSafe_no_space (s : Bytes) (h : plainSafe s = true) : ∀ c ∈ s, c ≠ ' ' :=
  fun c hc => (safeChar_spec c ((plainSafe_spec s h).2.1 c hc)).2.1

theorem plainSafe_no_nl (s : Bytes) (h : plainSafe s = true) : ∀ c ∈ s, c ≠ '\n' :=
  fun c hc => (safeChar_spec c ((plainSafe_spec s h).2.1 c hc)).2.2.1

theorem plainSafe_no_dash (s : Bytes) (h : plainSafe s = true) : ∀ c ∈ s, c ≠ '-' :=
  fun c hc => (safeChar_spec c ((plainSafe_spec s h).2.1 c hc)).2.2.2.1

theorem plainSafe_no_colon (s : Bytes) (h : plainSafe s = true) : ∀ c ∈ s, c ≠ ':' :=
  fun c hc => (safeChar_spec c ((plainSafe_spec s h).2.1 c hc)).1

theorem plainSafe_no_lb (s : Bytes) (h : plainSafe s = true) : ∀ c ∈ s, c ≠ '[' :=
  fun c hc => (safeChar_spec c ((plainSafe_spec s h).2.1 c hc)).2.2.2.2.2.2.2.1

theorem splitLines_items (ts : List Bytes) (r : Bytes)
    (h : ∀ t ∈ ts, ∀ c ∈ t, c ≠ '\n') :
    splitLines ((ts.map (fun t => '-' :: ' ' :: (t ++ ['\n']))).flatten ++ r)
      = ts.map (fun t => '-' :: ' ' :: t) ++ splitLines r := by
  induction ts with
  | nil => simp
  | cons t ts2 ih =>
    have hsh : ((t :: ts2).map (fun t => '-' :: ' ' :: (t ++ ['\n']))).flatten ++ r
        = ('-' :: ' ' :: t)
          ++ '\n' :: ((ts2.map (fun t => '-' :: ' ' :: (t ++ ['\n']))).flatten ++ r) := by
      simp [List.append_assoc]
    rw [hsh, splitLines_append _ _ ?hno, ih (fun x hx => h x (by simp [hx]))]
    · rfl
    case hno =>
      intro c hc
      simp only [List.mem_cons] at hc
      rcases hc with rfl | rfl | hct
      · decide
      · decide
      · exact h t (by simp) c hct

end J

namespace J

/-- `splitLines` of the emitted header: one line per mapping entry plus
one block-sequence line per tag and a final empty line. -/
theorem splitLines_header (C : Bytes) (ts : List Bytes) (bl : Bytes)
    (hC : plainSafe C = true) (hts : ∀ t ∈ ts, plainSafe t = true)
    (hbl : ∀ c ∈ bl, c ≠ '\n') :
    splitLines ("class: ".toList ++ C ++ ['\n'] ++ encodeTags (some ts)
        ++ "pending_review: ".toList ++ bl ++ ['\n'])
      = ("class".toList ++ ':' :: ' ' :: C)
          :: tagsLines ts
          ++ [("pending_review".toList ++ ':' :: ' ' :: bl), []] := by
  have hCnl : ∀ c ∈ C, c ≠ '\n' := plainSafe_no_nl C hC
  have hline1 : ∀ c ∈ ("class".toList ++ ':' :: ' ' :: C : Bytes), c ≠ '\n' := by
    intro c hc
    simp only [List.mem_append, List.mem_cons] at hc
    rcases hc with hc | rfl | rfl | hc
    · exact (show ∀ x ∈ ("class".toList : Bytes), x ≠ '\n' by decide) c hc
    · decide
    · decide
    · exact hCnl c hc
  have hprline : ∀ c ∈ ("pending_review".toList ++ ':' :: ' ' :: bl : Bytes), c ≠ '\n' := by
    intro c hc
    simp only [List.mem_append, List.mem_cons] at hc
    rcases hc with hc | rfl | rfl | hc
    · exact (show ∀ x ∈ ("pending_review".toList : Bytes), x ≠ '\n' by decide) c hc
    · decide
    · decide
    · exact hbl c hc
  have hsh1 : ("class: ".toList ++ C ++ ['\n'] ++ encodeTags (some ts)
        ++ "pending_review: ".toList ++ bl ++ ['\n'])
      = ("class".toList ++ ':' :: ' ' :: C)
          ++ '\n' :: (encodeTags (some ts)
            ++ (("pending_review".toList ++ ':' :: ' ' :: bl) ++ '\n' :: [])) := by
    simp [List.append_assoc]
  rw [hsh1, splitLines_append _ _ hline1]
  have hpr : splitLines (("pending_review".toList ++ ':' :: ' ' :: bl) ++ '\n' :: [])
      = [("pending_review".toList ++ ':' :: ' ' :: bl), []] := by
    rw [splitLines_append _ _ hprline]
    rfl
  cases ts with
  | nil =>
    have hsh2 : (encodeTags (some [])
          ++ (("pending_review".toList ++ ':' :: ' ' :: bl) ++ '\n' :: []))
        = "tags: []".toList
          ++ '\n' :: (("pending_review".toList ++ ':' :: ' ' :: bl) ++ '\n' :: []) := by
      rfl
    rw [hsh2, splitLines_append _ _
      (show ∀ x ∈ ("tags: []".toList : Bytes), x ≠ '\n' by decide), hpr]
    rfl
  | cons t ts2 =>
    have hts2 : ∀ x ∈ t :: ts2, ∀ c ∈ x, c ≠ '\n' :=
      fun x hx => plainSafe_no_nl x (hts x hx)
    have hmap : (t :: ts2).map (fun t => '-' :: ' ' :: (encodeScalar t ++ ['\n']))
        = (t :: ts2).map (fun t => '-' :: ' ' :: (t ++ ['\n'])) := by
      apply List.map_congr_left
      intro x hx
      rw [encodeScalar, if_neg ((plainSafe_spec x (hts x hx)).1)]
    have hsh2 : (encodeTags (some (t :: ts2))
          ++ (("pending_review".toList ++ ':' :: ' ' :: bl) ++ '\n' :: []))
        = "tags:".toList
          ++ '\n' :: (((t :: ts2).map (fun t => '-' :: ' ' :: (t ++ ['\n']))).flatten
            ++ (("pending_review".toList ++ ':' :: ' ' :: bl) ++ '\n' :: [])) := by
      show ("tags:\n".toList
          ++ ((t :: ts2).map (fun t => '-' :: ' ' :: (encodeScalar t ++ ['\n']))).flatten
          ++ (("pending_review".toList ++ ':' :: ' ' :: bl) ++ '\n' :: []))
        = _
      rw [hmap]
      simp [List.append_assoc]
    rw [hsh2, splitLines_append _ _
      (show ∀ x ∈ ("tags:".toList : Bytes), x ≠ '\n' by decide)]
    rw [splitLines_items _ _ hts2, hpr]
    rfl

end J

namespace J

/-- Parsing the header lines produced by the emitter yields exactly the
three raw entries. -/
theorem parseEntries_header (C : Bytes) (ts : List Bytes) (p : Bool)
    (hC : plainSafe C = true) (hts : ∀ t ∈ ts, plainSafe t = true) :
    parseEntries (("class".toList ++ ':' :: ' ' :: C)
        :: tagsLines ts
        ++ [("pending_review".toList ++ ':' :: ' '
              :: (if p then "true".toList else "false".toList)), []])
      = .ok [("class".toList, .scalarV C), ("tags".toList, .seqV ts),
             ("pending_review".toList,
              .scalarV (if p then "true".toList else "false".toList))] := by
  have hlen : (("class".toList ++ ':' :: ' ' :: C)
      :: tagsLines ts
      ++ [("pending_review".toList ++ ':' :: ' '
            :: (if p then "true".toList else "false".toList)), []]).length
      = ts.length + 4 := by
    cases ts with
    | nil => simp [tagsLines]
    | cons t ts2 => simp [tagsLines]
  unfold parseEntries
  rw [hlen, List.cons_append]
  rw [parseEntriesF_kv (ts.length + 4) "class".toList C _
    (by decide) (by decide) (by decide) (by decide)
    (plainSafe_no_space C hC)
    (head?_ne_of_all C '[' (plainSafe_no_lb C hC))]
  have hpr : ∀ fuel : Nat,
      parseEntriesF (fuel + 1)
        ((("pending_review".toList ++ ':' :: ' '
            :: (if p then "true".toList else "false".toList))) :: [([] : Bytes)])
      = (parseEntriesF fuel [([] : Bytes)]).map
          (fun es => (("pending_review".toList,
            RawVal.scalarV (if p then "true".toList else "false".toList))) :: es) := by
    intro fuel
    cases p with
    | true => rfl
    | false => rfl
  cases ts with
  | nil => cases p <;> rfl
  | cons t ts2 =>
    have hstep : parseEntriesF ((t :: ts2).length + 4)
        (tagsLines (t :: ts2)
          ++ [("pending_review".toList ++ ':' :: ' '
                :: (if p then "true".toList else "false".toList)), []])
        = (parseEntriesF ((t :: ts2).length + 3)
            [("pending_review".toList ++ ':' :: ' '
                :: (if p then "true".toList else "false".toList)), []]).map
            (fun es => ("tags".toList, RawVal.seqV (t :: ts2)) :: es) := by
      show parseEntriesF (((t :: ts2).length + 3) + 1)
          (("tags".toList ++ [':'])
            :: ((t :: ts2).map (fun x => '-' :: ' ' :: x)
              ++ [("pending_review".toList ++ ':' :: ' '
                    :: (if p then "true".toList else "false".toList)), []])) = _
      rw [parseEntriesF_keyBlock ((t :: ts2).length + 3) "tags".toList (t :: ts2) _
        (by decide) (by decide) (by decide) (by decide)
        (by simp)
        (fun x hx => plainSafe_no_space x (hts x hx))
        ?hrest]
      case hrest =>
        intro l hl
        simp only [List.head?_cons, Option.mem_def, Option.some.injEq] at hl
        subst hl
        apply seqItem?_not_item
        · cases p with
          | true => decide
          | false => decide
        · cases p with
          | true => decide
          | false => decide
    rw [hstep]
    rw [show (t :: ts2).length + 3 = ((t :: ts2).length + 2) + 1 from rfl,
      hpr ((t :: ts2).length + 2)]
    rw [show (t :: ts2).length + 2 = ((t :: ts2).length + 1) + 1 from rfl,
      parseEntriesF_blank ((t :: ts2).length + 1) []]
    rw [show parseEntriesF ((t :: ts2).length + 1) ([] : List Bytes) = .ok [] from rfl]
    rfl

end J

namespace J

theorem decodeBuf_std (C : Bytes) (ts : List Bytes) (p : Bool)
    (hC : plainSafe C = true) (hts : ∀ t ∈ ts, plainSafe t = true) :
    decodeBuf [("class".toList, .scalarV C), ("tags".toList, .seqV ts),
      ("pending_review".toList,
        .scalarV (if p then "true".toList else "false".toList))]
      = .ok { Class := C, Tags := some ts, PendingReview := p } := by
  have h1 : applyEntry {} ("class".toList, .scalarV C) = .ok { Class := C } := by
    unfold applyEntry
    dsimp only
    rw [if_pos rfl]
    unfold decodeStringVal
    dsimp only
    rw [resolveScalar_plain C hC]
    rfl
  have h2 : applyEntry { Class := C } ("tags".toList, .seqV ts)
      = .ok { Class := C, Tags := some ts } := by
    unfold applyEntry
    dsimp only
    rw [if_neg (by decide), if_pos rfl]
    unfold decodeTagsVal
    dsimp only
    rw [mapM_decode_plain ts hts]
    rfl
  have h3 : applyEntry { Class := C, Tags := some ts }
      ("pending_review".toList,
        RawVal.scalarV (if p then "true".toList else "false".toList))
      = .ok { Class := C, Tags := some ts, PendingReview := p } := by
    unfold applyEntry
    dsimp only
    rw [if_neg (by decide), if_neg (by decide), if_pos rfl]
    cases p with
    | true => rfl
    | false => rfl
  unfold decodeBuf
  rw [List.foldlM_cons, h1]
  dsimp only [Bind.bind, Except.bind]
  rw [List.foldlM_cons, h2]
  dsimp only [Bind.bind, Except.bind]
  rw [List.foldlM_cons, h3]
  dsimp only [Bind.bind, Except.bind]
  rfl

end J

namespace J

/-- Decoding the emitted header recovers the front matter. -/
theorem yamlFM_header (C : Bytes) (ts : List Bytes) (p : Bool)
    (hC : plainSafe C = true) (hts : ∀ t ∈ ts, plainSafe t = true) :
    yamlUnmarshalFM ("class: ".toList ++ C ++ ['\n'] ++ encodeTags (some ts)
        ++ "pending_review: ".toList
        ++ (if p then "true".toList else "false".toList) ++ ['\n'])
      = .ok { Class := C, Tags := some ts, PendingReview := p } := by
  have hw : isWhitespaceOnly ("class: ".toList ++ C ++ ['\n'] ++ encodeTags (some ts)
      ++ "pending_review: ".toList
      ++ (if p then "true".toList else "false".toList) ++ ['\n']) = false := by
    show isWhitespaceOnly ('c' :: _) = false
    simp [isWhitespaceOnly]
  have hbl : ∀ c ∈ (if p then "true".toList else "false".toList), c ≠ '\n' := by
    cases p with
    | true => decide
    | false => decide
  unfold yamlUnmarshalFM
  rw [hw]
  simp only [Bool.false_eq_true, if_false]
  rw [splitLines_header C ts _ hC hts hbl]
  rw [parseEntries_header C ts p hC hts]
  dsimp only
  rw [decodeBuf_std C ts p hC hts]
  rfl

end J

namespace J

theorem boundary_right (A B : Bytes) (c : Char) (hB : B.head? = some c) (hc : c ≠ '-') :
    ∀ x ∈ A.getLast?, ∀ y ∈ B.head?, notDD x y := by
  intro x hx y hy
  rw [hB] at hy
  simp only [Option.mem_def, Option.some.injEq] at hy
  subst hy
  exact notDD_of_right x c hc

theorem boundary_left (A B : Bytes) (h : ∀ x ∈ A.getLast?, x ≠ '-') :
    ∀ x ∈ A.getLast?, ∀ y ∈ B.head?, notDD x y :=
  fun x hx y _ => notDD_of_left x y (h x hx)

theorem chain'_encodeTags (ts : List Bytes) (hts : ∀ t ∈ ts, plainSafe t = true) :
    List.Chain' notDD (encodeTags (some ts)) := by
  cases ts with
  | nil =>
    apply chain'_notDD_of_no_dash
    decide
  | cons t ts2 =>
    show List.Chain' notDD ("tags:\n".toList
      ++ ((t :: ts2).map (fun x => '-' :: ' ' :: (encodeScalar x ++ ['\n']))).flatten)
    apply List.chain'_append.mpr
    refine ⟨by apply chain'_notDD_of_no_dash; decide, ?_, ?_⟩
    · apply chain'_notDD_flatten
      intro f hf
      simp only [List.mem_map] at hf
      obtain ⟨x, hx, rfl⟩ := hf
      have hes : encodeScalar x = x := by
        rw [encodeScalar, if_neg ((plainSafe_spec x (hts x hx)).1)]
      constructor
      · rw [hes, List.chain'_cons]
        refine ⟨notDD_of_right '-' ' ' (by decide), ?_⟩
        apply chain'_notDD_of_no_dash
        intro c hc
        simp only [List.mem_cons, List.mem_append] at hc
        rcases hc with rfl | hc | hc2
        · decide
        · exact plainSafe_no_dash x (hts x hx) c hc
        · rcases hc2 with rfl | h0
          · decide
          · exact absurd h0 (List.not_mem_nil c)
      · intro z hz
        rw [show ('-' :: ' ' :: (encodeScalar x ++ ['\n']))
            = ('-' :: ' ' :: encodeScalar x) ++ ['\n'] from by simp] at hz
        rw [List.getLast?_concat] at hz
        simp only [Option.mem_def, Option.some.injEq] at hz
        subst hz
        decide
    · apply boundary_left
      intro x hx
      rw [show ("tags:\n".toList : Bytes).getLast? = some '\n' from by decide] at hx
      simp only [Option.mem_def, Option.some.injEq] at hx
      subst hx
      decide

theorem chain'_encodeFM (obj : Thought) (ts : List Bytes)
    (htags : obj.Meta.Tags = some ts)
    (hC : plainSafe obj.Meta.Class = true)
    (hts : ∀ t ∈ ts, plainSafe t = true) :
    List.Chain' notDD (encodeFrontMatter obj) := by
  have hesC : encodeScalar obj.Meta.Class = obj.Meta.Class := by
    rw [encodeScalar, if_neg ((plainSafe_spec _ hC).1)]
  have hCchain : List.Chain' notDD (encodeScalar obj.Meta.Class) := by
    rw [hesC]
    exact chain'_notDD_of_no_dash _ (plainSafe_no_dash _ hC)
  have hbl : List.Chain' notDD
      (if obj.PendingReview then "true".toList else "false".toList) := by
    cases hp : obj.PendingReview
    · apply chain'_notDD_of_no_dash; decide
    · apply chain'_notDD_of_no_dash; decide
  have hblh : (if obj.PendingReview then "true".toList else "false".toList).head?
      = some (if obj.PendingReview then 't' else 'f') := by
    cases hp : obj.PendingReview <;> rfl
  have htagsh : (encodeTags (some ts)).head? = some 't' := by
    cases ts with
    | nil => rfl
    | cons t ts2 => rfl
  unfold encodeFrontMatter
  rw [htags]
  apply List.chain'_append.mpr
  refine ⟨?_, chain'_notDD_of_no_dash ['\n'] (by decide), ?_⟩
  · apply List.chain'_append.mpr
    refine ⟨?_, hbl, boundary_right _ _ _ hblh (by cases obj.PendingReview <;> decide)⟩
    · apply List.chain'_append.mpr
      refine ⟨?_, by apply chain'_notDD_of_no_dash; decide,
        boundary_right _ _ 'p' rfl (by decide)⟩
      · apply List.chain'_append.mpr
        refine ⟨?_, chain'_encodeTags ts hts, boundary_right _ _ 't' htagsh (by decide)⟩
        · apply List.chain'_append.mpr
          refine ⟨?_, chain'_notDD_of_no_dash ['\n'] (by decide),
            boundary_right _ _ '\n' (by rfl) (by decide)⟩
          · apply List.chain'_append.mpr
            refine ⟨by apply chain'_notDD_of_no_dash; decide, hCchain, ?_⟩
            intro x hx y hy
            have hyC : y ∈ encodeScalar obj.Meta.Class :=
              List.mem_of_mem_head? hy
            rw [hesC] at hyC
            exact notDD_of_right x y (plainSafe_no_dash _ hC y hyC)
  · apply boundary_right _ _ '\n' (by rfl) (by decide)

end J

namespace J

/-- Trimming the marshaled body section recovers the body when the body
does not end in a newline. -/
theorem trimRightNewlines_bodyOut (obj : Thought) (h : obj.Body.getLast? ≠ some '\n') :
    trimRightNewlines (bodyOut obj) = obj.Body := by
  unfold bodyOut
  by_cases hb : obj.Body.length ≠ 0
  · rw [if_pos hb]
    unfold trimRightNewlines
    rw [show (obj.Body ++ ['\n']).reverse = '\n' :: obj.Body.reverse from by simp]
    rw [List.dropWhile_cons, if_pos (by decide)]
    cases hr : obj.Body.reverse with
    | nil => simp at hr; simp [hr] at hb
    | cons c r2 =>
      have hc : c ≠ '\n' := by
        intro hcc
        apply h
        rw [← List.head?_reverse, hr, hcc]
        rfl
      rw [List.dropWhile_cons, if_neg (by simpa using hc), ← hr, List.reverse_reverse]
  · rw [if_neg hb]
    have hnil : obj.Body = [] := by
      simpa using hb
    rw [hnil]
    rfl

/-- C2 counterexample: the claim quantifies over arbitrary string tags,
but for the tag `x---` the emitted header line `- x---` is followed by
a newline, so the buffer contains the separator `---\n` inside the
header section; `bytes.SplitN` splits at that occurrence, and
`Unmarshal` of the `Marshal` output SUCCEEDS with tags `["x"]` instead
of `["x---"]` and with the rest of the header swallowed into the body —
the round trip fails on a claim-domain input. -/
theorem claim_C2_counterexample :
    ({ id := [], Body := ['b'], PendingReview := false
       Meta := { Class := "thought".toList, Tags := some ["x---".toList] } : Thought}).Marshal
      = .ok (marshalBytes
          { id := [], Body := ['b'], PendingReview := false
            Meta := { Class := "thought".toList, Tags := some ["x---".toList] } })
    ∧ (({ id := [], Body := ['b'], PendingReview := false
          Meta := { Class := "thought".toList, Tags := some ["x---".toList] } : Thought}).Unmarshal
        (marshalBytes
          { id := [], Body := ['b'], PendingReview := false
            Meta := { Class := "thought".toList, Tags := some ["x---".toList] } })).err = none
    ∧ (({ id := [], Body := ['b'], PendingReview := false
          Meta := { Class := "thought".toList, Tags := some ["x---".toList] } : Thought}).Unmarshal
        (marshalBytes
          { id := [], Body := ['b'], PendingReview := false
            Meta := { Class := "thought".toList, Tags := some ["x---".toList] } })).obj.Meta.Tags
      = some ["x".toList]
    ∧ (({ id := [], Body := ['b'], PendingReview := false
          Meta := { Class := "thought".toList, Tags := some ["x---".toList] } : Thought}).Unmarshal
        (marshalBytes
          { id := [], Body := ['b'], PendingReview := false
            Meta := { Class := "thought".toList, Tags := some ["x---".toList] } })).obj.Meta.Tags
      ≠ some ["x---".toList]
    ∧ (({ id := [], Body := ['b'], PendingReview := false
          Meta := { Class := "thought".toList, Tags := some ["x---".toList] } : Thought}).Unmarshal
        (marshalBytes
          { id := [], Body := ['b'], PendingReview := false
            Meta := { Class := "thought".toList, Tags := some ["x---".toList] } })).obj.Body
      = "pending_review: false\n---\nb".toList := by
  refine ⟨marshal_eq _, by decide, by decide, by decide, by decide⟩

/-- C2 (amended): round-trip stability holds for a Thought whose tags
slice is non-nil, whose class and tags are dash-free plain scalars
(`plainSafe`), and whose body does not end in a newline: `Unmarshal` of
the `Marshal` output succeeds and reproduces class, tags,
pending_review and body exactly.  The dash-free restriction is forced:
a tag carrying trailing dashes (see the counterexample) places the
separator bytes `---\n` inside the emitted header, `bytes.SplitN`
matches them there, and the round trip silently returns wrong fields. -/
theorem claim_C2_roundtrip (obj : Thought) (ts : List Bytes) (out : Bytes)
    (htags : obj.Meta.Tags = some ts)
    (hclass : plainSafe obj.Meta.Class = true)
    (hts : ∀ t ∈ ts, plainSafe t = true)
    (hbody : obj.Body.getLast? ≠ some '\n')
    (hout : obj.Marshal = .ok out) :
    (obj.Unmarshal out).err = none
    ∧ (obj.Unmarshal out).obj.Meta.Class = obj.Meta.Class
    ∧ (obj.Unmarshal out).obj.Meta.Tags = obj.Meta.Tags
    ∧ (obj.Unmarshal out).obj.PendingReview = obj.PendingReview
    ∧ (obj.Unmarshal out).obj.Body = obj.Body := by
  obtain rfl : out = marshalBytes obj :=
    Except.ok.inj (hout.symm.trans (marshal_eq obj))
  have hchain : List.Chain' notDD (encodeFrontMatter obj) :=
    chain'_encodeFM obj ts htags hclass hts
  have hsplit : goSplitN sepMarker (marshalBytes obj) 3
      = [[], encodeFrontMatter obj, bodyOut obj] := by
    unfold marshalBytes
    exact goSplitN_marker _ _ hchain
  have hfm : yamlUnmarshalFM (encodeFrontMatter obj)
      = .ok { Class := obj.Meta.Class, Tags := some ts
              PendingReview := obj.PendingReview } := by
    have hesC : encodeScalar obj.Meta.Class = obj.Meta.Class := by
      rw [encodeScalar, if_neg ((plainSafe_spec _ hclass).1)]
    unfold encodeFrontMatter
    rw [htags, hesC]
    exact yamlFM_header obj.Meta.Class ts obj.PendingReview hclass hts
  unfold Thought.Unmarshal
  rw [hsplit]
  dsimp only
  simp only [ne_eq, not_true_eq_false, if_false]
  rw [hfm]
  dsimp only
  refine ⟨rfl, ?_, ?_, rfl, ?_⟩
  · simp [GoMeta.Update]
  · simp [GoMeta.Update, htags]
  · exact trimRightNewlines_bodyOut obj hbody

/-- Witness for C2 at a concrete Thought with two tags, pending review
set, and a multi-line body. -/
theorem claim_C2_roundtrip_witness :
    (({ id := [], Body := "# blah blah\n\nsome text".toList
        PendingReview := true
        Meta := { Class := "thought".toList
                  Tags := some ["foo".toList, "bar".toList] } : Thought}).Unmarshal
      (marshalBytes
        { id := [], Body := "# blah blah\n\nsome text".toList
          PendingReview := true
          Meta := { Class := "thought".toList
                    Tags := some ["foo".toList, "bar".toList] } })).err = none
    ∧ (({ id := [], Body := "# blah blah\n\nsome text".toList
          PendingReview := true
          Meta := { Class := "thought".toList
                    Tags := some ["foo".toList, "bar".toList] } : Thought}).Unmarshal
      (marshalBytes
        { id := [], Body := "# blah blah\n\nsome text".toList
          PendingReview := true
          Meta := { Class := "thought".toList
                    Tags := some ["foo".toList, "bar".toList] } })).obj.Body
      = "# blah blah\n\nsome text".toList := by
  have h := claim_C2_roundtrip
    { id := [], Body := "# blah blah\n\nsome text".toList
      PendingReview := true
      Meta := { Class := "thought".toList
                Tags := some ["foo".toList, "bar".toList] } }
    ["foo".toList, "bar".toList]
    (marshalBytes
      { id := [], Body := "# blah blah\n\nsome text".toList
        PendingReview := true
        Meta := { Class := "thought".toList
                  Tags := some ["foo".toList, "bar".toList] } })
    rfl (by decide) (by decide) (by decide) (marshal_eq _)
  exact ⟨h.1, h.2.2.2.2⟩

end J
